import Mathlib

/-!
Verification of the crossword CSP solver (`generate.py`).

The solver operates on a structural model built by the external
`Crossword` class (slots/"variables", a word list, an overlap relation and
a derived neighbor relation).  That class is not part of the analysed core,
so its data is modelled from the spec as a `Puzzle` record.  All operations
of `CrosswordCreator` (node consistency, `revise`, `ac3`, `consistent`,
`assignment_complete`, `order_domain_values`, `select_unassigned_variable`,
`backtrack`, `solve`) are embedded as executable functions below.

Modelling conventions:
- Python strings are `List Char`; `word[i]` is `List.get?` and an
  out-of-range access (Python `IndexError`/`TypeError`/`KeyError`) is the
  `Except.error ()` outcome, which propagates like an exception.
- Python dicts/sets iterated by the code are association lists / lists in
  iteration order; `dict.pop` on a missing key is an error.
- The two `while`/recursion constructs (`ac3`, `backtrack`) take a fuel
  argument; running out of fuel is the `Except.error ()` outcome, so every
  `.ok` result corresponds to an actual terminating Python run.
-/

/-- A crossword word, i.e. a Python string. -/
abbrev Word := List Char

/-- Modelled from the spec: a slot ("Variable") with starting row, starting
column, length and orientation; equality is componentwise. -/
structure Var where
  row : Nat
  col : Nat
  length : Nat
  down : Bool
deriving DecidableEq, Repr

/-- Modelled from the spec: the immutable structural model, with the slot
set, the word list, and the overlap relation giving the pair of intra-word
indices at which two slots cross (`none` when they do not overlap). -/
structure Puzzle where
  vars : List Var
  words : List Word
  overlaps : Var → Var → Option (Nat × Nat)

/-- A partial assignment: the Python dict from slot to word, as an
association list in insertion order. -/
abbrev Assignment := List (Var × Word)

/-- The domain store: the Python dict from slot to its candidate word set,
modelled as the lookup function (word sets are lists in iteration order). -/
abbrev Domains := Var → List Word

/-- Dict lookup `assignment[v]` (as an `Option`). -/
def lookupA : Assignment → Var → Option Word
  | [], _ => none
  | (k, u) :: rest, v => if k = v then some u else lookupA rest v

/-- Dict write `assignment[v] = w`: overwrite in place if the key exists,
otherwise append at the end (Python dict insertion-order semantics). -/
def insertA : Assignment → Var → Word → Assignment
  | [], v, w => [(v, w)]
  | (k, u) :: rest, v, w => if k = v then (k, w) :: rest else (k, u) :: insertA rest v w

/-- Removal of a key from the association list. -/
def eraseA : Assignment → Var → Assignment
  | [], _ => []
  | (k, u) :: rest, v => if k = v then rest else (k, u) :: eraseA rest v

/-- Dict `assignment.pop(v)`: removes the entry, a `KeyError` if absent. -/
def popA (asg : Assignment) (v : Var) : Except Unit Assignment :=
  if (lookupA asg v).isSome then .ok (eraseA asg v) else .error ()

/-- The keys of an assignment. -/
def keysA (asg : Assignment) : List Var := asg.map Prod.fst

/-- Removal of one occurrence of a slot from a slot list. -/
def eraseV : List Var → Var → List Var
  | [], _ => []
  | u :: rest, v => if u = v then rest else u :: eraseV rest v

/-- Point update of the domain store (`self.domains[x] = ws`). -/
def updateD (d : Domains) (x : Var) (ws : List Word) : Domains :=
  fun v => if v = x then ws else d v

/-- Number of distinct words in a list (the size of the Python set built
from it). -/
def numDistinct : List Word → Nat
  | [] => 0
  | w :: rest => (if w ∈ rest then 0 else 1) + numDistinct rest

/-- Stable insertion into a list sorted ascending by `key` (the element
goes before the first strictly greater key, as Python's stable sort). -/
def insortBy (key : α → Nat) (x : α) : List α → List α
  | [] => [x]
  | y :: ys => if key x ≤ key y then x :: y :: ys else y :: insortBy key x ys

/-- Stable ascending sort by `key`, modelling Python's `list.sort(key=...)`. -/
def isortBy (key : α → Nat) : List α → List α
  | [] => []
  | x :: xs => insortBy key x (isortBy key xs)

/-- Modelled from the spec: the derived neighbor relation of the structural
model — the slots that overlap a given slot. -/
def neighbors (p : Puzzle) (v : Var) : List Var :=
  p.vars.filter (fun u => !(decide (u = v)) && (p.overlaps u v).isSome)

/-- The initial domain store: a copy of the full word list per slot
(`CrosswordCreator.__init__`). -/
def initDomains (p : Puzzle) : Domains := fun _ => p.words

/-- Two words agree at the given pair of character indices (both characters
exist and are equal). -/
def agrees (w u : Word) (i j : Nat) : Prop :=
  (w.get? i).isSome ∧ w.get? i = u.get? j

instance (w u : Word) (i j : Nat) : Decidable (agrees w u i j) :=
  inferInstanceAs (Decidable (_ ∧ _))

/-- The words assigned to two slots agree at their recorded overlap
indices (vacuously true when the slots do not overlap). -/
def agreesAt (p : Puzzle) (v n : Var) (w wn : Word) : Prop :=
  ∀ i j, p.overlaps v n = some (i, j) → agrees w wn i j

instance (p : Puzzle) (v n : Var) (w wn : Word) : Decidable (agreesAt p v n w wn) :=
  match h : p.overlaps v n with
  | none => isTrue (by intro i j hij; rw [h] at hij; cases hij)
  | some (a, b) =>
      decidable_of_iff (agrees w wn a b) (by
        constructor
        · intro ha i j hij
          rw [h] at hij
          cases hij
          exact ha
        · intro ha
          exact ha a b h)

/-- Modelled from the spec: well-formedness of the structural model — the
recorded overlap indices lie inside the two slots, and the relation is
symmetric with swapped index order. -/
structure Wf (p : Puzzle) : Prop where
  idx : ∀ x y i j, p.overlaps x y = some (i, j) → i < x.length ∧ j < y.length
  symm : ∀ x y i j, p.overlaps x y = some (i, j) → p.overlaps y x = some (j, i)

/-- Slot `x` is arc consistent with `y`: every word remaining in `x`'s
domain agrees with some word of `y`'s domain at the recorded overlap. -/
def consistentArc (p : Puzzle) (d : Domains) (x y : Var) : Prop :=
  ∀ i j, p.overlaps x y = some (i, j) → ∀ w ∈ d x, ∃ u ∈ d y, agrees w u i j

/-- `CrosswordCreator.enforce_node_consistency`: drop from every slot's
domain the words whose length differs from the slot's length. -/
def enforce_node_consistency (p : Puzzle) (d : Domains) : Domains :=
  fun v => (d v).filter (fun w => decide (v.length = w.length))

/-- The inner loop of `revise`: scan `y`'s domain for a word matching `w`
at the overlap characters, breaking at the first match; an out-of-range
character access is a runtime error. -/
def hasMatch (w : Word) (i j : Nat) : List Word → Except Unit Bool
  | [] => .ok false
  | u :: rest =>
      match w.get? i, u.get? j with
      | some c, some c' => if c = c' then .ok true else hasMatch w i j rest
      | _, _ => .error ()

/-- The two-phase filter of `revise`: keep exactly the words of `x`'s
domain that have a match in `y`'s domain. -/
def keepMatching (i j : Nat) (dy : List Word) : List Word → Except Unit (List Word)
  | [] => .ok []
  | w :: rest =>
      match hasMatch w i j dy with
      | .error e => .error e
      | .ok b =>
          match keepMatching i j dy rest with
          | .error e => .error e
          | .ok ws => .ok (if b then w :: ws else ws)

/-- `CrosswordCreator.revise`: make `x` arc consistent with `y`, returning
the updated store and whether any word was removed; a no-op when the two
slots do not overlap. -/
def revise (p : Puzzle) (d : Domains) (x y : Var) : Except Unit (Domains × Bool) :=
  match p.overlaps x y with
  | none => .ok (d, false)
  | some (i, j) =>
      match keepMatching i j (d y) (d x) with
      | .error e => .error e
      | .ok kept => .ok (updateD d x kept, decide (kept.length ≠ (d x).length))

/-- The inner loop of the initial-arc construction: for a fixed `v`,
append `(v, v2)` for every other slot `v2` unless `(v2, v)` is already
present (the dedup check of `ac3`). -/
def addArcsFor (v : Var) : List Var → List (Var × Var) → List (Var × Var)
  | [], acc => acc
  | v2 :: rest, acc =>
      addArcsFor v rest
        (if v ≠ v2 ∧ (v2, v) ∉ acc then acc ++ [(v, v2)] else acc)

/-- The outer loop of the initial-arc construction of `ac3`. -/
def initArcsOuter (vars : List Var) : List Var → List (Var × Var) → List (Var × Var)
  | [], acc => acc
  | v :: rest, acc => initArcsOuter vars rest (addArcsFor v vars acc)

/-- The initial worklist of `ac3` when no seed arcs are supplied: every
ordered pair of distinct slots, each unordered pair kept only once. -/
def initArcs (vars : List Var) : List (Var × Var) :=
  initArcsOuter vars vars []

/-- The `while arcs:` loop of `ac3`.  The Python list used as a stack
(append/`pop` at the end) is modelled with its top at the head, so the
pushed arcs are consed reversed.  Fuel exhaustion is the error outcome. -/
def ac3Loop (p : Puzzle) : Nat → Domains → List (Var × Var) → Except Unit (Bool × Domains)
  | 0, _, _ => .error ()
  | _ + 1, d, [] => .ok (true, d)
  | fuel + 1, d, (x, y) :: rest =>
      match revise p d x y with
      | .error e => .error e
      | .ok (d1, rev) =>
          if rev then
            if (d1 x).length = 0 then .ok (false, d1)
            else
              ac3Loop p fuel d1
                ((((neighbors p x).filter (fun z => !(decide (z = y)))).map
                  (fun z => (z, x))).reverse ++ rest)
          else ac3Loop p fuel d1 rest

/-- `CrosswordCreator.ac3`: seed the worklist (an empty seed list behaves
like the `None` default, by the `if not arcs:` truthiness test) and run
the propagation loop. -/
def ac3 (p : Puzzle) (fuel : Nat) (d : Domains) (arcs : List (Var × Var)) :
    Except Unit (Bool × Domains) :=
  ac3Loop p fuel d
    (if arcs.isEmpty then (initArcs p.vars).reverse else arcs.reverse)

/-- Short-circuit conjunction of checks: an error propagates, a failed
check returns false immediately, a passed check moves on (the control
flow of the early `return False` loops in `consistent`). -/
def seqAnd (x : Except Unit Bool) (k : Except Unit Bool) : Except Unit Bool :=
  match x with
  | .error e => .error e
  | .ok true => k
  | .ok false => .ok false

/-- The overlap-character comparison of `consistent` for one assigned
neighbor: a `None` overlap entry (`None[0]`) or an out-of-range character
access is a runtime error, otherwise the two characters are compared. -/
def overlapCharOk (w wn : Word) (ov : Option (Nat × Nat)) : Except Unit Bool :=
  match ov with
  | none => .error ()
  | some (i, j) =>
      match w.get? i, wn.get? j with
      | some c, some c' => .ok (decide (c = c'))
      | _, _ => .error ()

/-- The neighbor scan of `consistent` for one assigned slot: compare with
each assigned neighbor's word at the recorded overlap, with the early
`return False` on the first mismatch. -/
def checkNeighbors (p : Puzzle) (asg : Assignment) (v : Var) (w : Word) :
    List Var → Except Unit Bool
  | [] => .ok true
  | n :: rest =>
      match lookupA asg n with
      | none => checkNeighbors p asg v w rest
      | some wn =>
          seqAnd (overlapCharOk w wn (p.overlaps v n)) (checkNeighbors p asg v w rest)

/-- The per-slot body of the `consistent` loop: first the length test,
then the overlap tests against all assigned neighbors. -/
def checkEntry (p : Puzzle) (asg : Assignment) (v : Var) (w : Word) : Except Unit Bool :=
  if w.length ≠ v.length then .ok false
  else checkNeighbors p asg v w (neighbors p v)

/-- The main loop of `consistent` over the assigned slots, in insertion
order, with the early `return False` on the first violation. -/
def consistentLoop (p : Puzzle) (asg : Assignment) : Assignment → Except Unit Bool
  | [] => .ok true
  | (v, w) :: rest =>
      seqAnd (checkEntry p asg v w) (consistentLoop p asg rest)

/-- `CrosswordCreator.consistent`: length match, overlap agreement for
every assigned pair of neighbors, and global distinctness (the size of
the set of assigned values must equal the number of entries). -/
def consistent (p : Puzzle) (asg : Assignment) : Except Unit Bool :=
  match consistentLoop p asg asg with
  | .error e => .error e
  | .ok false => .ok false
  | .ok true => .ok (decide (numDistinct (asg.map Prod.snd) = asg.length))

/-- The removal loop of `assignment_complete`: delete every assigned slot
from the copied slot list; a key that is not present is a runtime error
(`set.remove` raises `KeyError`). -/
def removeAll (vs : List Var) : Assignment → Except Unit (List Var)
  | [] => .ok vs
  | (v, _) :: rest => if v ∈ vs then removeAll (eraseV vs v) rest else .error ()

/-- `CrosswordCreator.assignment_complete`: true iff every slot is
assigned and the assignment is `consistent` (by short-circuit, `consistent`
only runs when no slot is left over). -/
def assignment_complete (p : Puzzle) (asg : Assignment) : Except Unit Bool :=
  match removeAll p.vars asg with
  | .error e => .error e
  | .ok rem => if rem.isEmpty then consistent p asg else .ok false

/-- The running minimum of `select_unassigned_variable`, with Python's
`if not shortest:` truthiness test: the accumulator is replaced outright
when it is `None` or `0`. -/
def shortestLen (d : Domains) : List Var → Option Nat → Option Nat
  | [], s => s
  | v :: rest, s =>
      match s with
      | none => shortestLen d rest (some (d v).length)
      | some k =>
          if k = 0 then shortestLen d rest (some (d v).length)
          else shortestLen d rest (some (if (d v).length < k then (d v).length else k))

/-- The slots not yet assigned, in slot-list order. -/
def unassignedVars (p : Puzzle) (asg : Assignment) : List Var :=
  p.vars.filter (fun v => !(lookupA asg v).isSome)

/-- `CrosswordCreator.select_unassigned_variable`: among unassigned slots
compute the running minimum domain size, keep the slots whose domain size
equals it, sort them ascending by neighbor count, reverse, and take the
first; an empty candidate list is a runtime error (`bestVars[0]`). -/
def select_unassigned_variable (p : Puzzle) (d : Domains) (asg : Assignment) :
    Except Unit Var :=
  let una := unassignedVars p asg
  let shortest := shortestLen d una none
  let bestVars :=
    (una.filter (fun v => decide (some (d v).length = shortest))).map
      (fun v => (v, (neighbors p v).length))
  match ((isortBy (fun vn => vn.2) bestVars).reverse).head? with
  | none => .error ()
  | some b => .ok b.1

/-- The innermost loop of `order_domain_values`: how many words of one
unassigned neighbor's domain mismatch the candidate at the overlap. -/
def ruledOutByNbr (w : Word) (i j : Nat) : List Word → Except Unit Nat
  | [] => .ok 0
  | u :: rest =>
      match w.get? i, u.get? j with
      | some c, some c' =>
          match ruledOutByNbr w i j rest with
          | .error e => .error e
          | .ok n => .ok (if c = c' then n else n + 1)
      | _, _ => .error ()

/-- The neighbor loop of `order_domain_values`: sum the ruled-out counts
over the unassigned neighbors (a `None` overlap entry would crash). -/
def countRuledOut (p : Puzzle) (d : Domains) (asg : Assignment) (v : Var) (w : Word) :
    List Var → Except Unit Nat
  | [] => .ok 0
  | n :: rest =>
      if (lookupA asg n).isSome then countRuledOut p d asg v w rest
      else
        match p.overlaps v n with
        | none => .error ()
        | some (i, j) =>
            match ruledOutByNbr w i j (d n) with
            | .error e => .error e
            | .ok c =>
                match countRuledOut p d asg v w rest with
                | .error e => .error e
                | .ok rest2 => .ok (c + rest2)

/-- The pair-building loop of `order_domain_values`. -/
def buildPairs (p : Puzzle) (d : Domains) (asg : Assignment) (v : Var) :
    List Word → Except Unit (List (Word × Nat))
  | [] => .ok []
  | w :: rest =>
      match countRuledOut p d asg v w (neighbors p v) with
      | .error e => .error e
      | .ok c =>
          match buildPairs p d asg v rest with
          | .error e => .error e
          | .ok prs => .ok ((w, c) :: prs)

/-- `CrosswordCreator.order_domain_values`: the domain of `v` sorted
ascending (stably) by the number of neighbor-domain values each candidate
rules out among unassigned neighbors. -/
def order_domain_values (p : Puzzle) (d : Domains) (v : Var) (asg : Assignment) :
    Except Unit (List Word) :=
  match buildPairs p d asg v (d v) with
  | .error e => .error e
  | .ok prs => .ok ((isortBy (fun wc => wc.2) prs).map (fun wc => wc.1))

/-- The `for word in self.domains[variable]:` loop of `backtrack`,
parameterized by the recursive search `bt` on the rest of the fuel.  The
domain store is threaded through to mirror the mutable `self.domains`
state (which the search never writes).  The tentative entry is `pop`ped
from the assignment as returned by the recursive call, as in the source. -/
def tryWords (p : Puzzle) (bt : Domains → Assignment → Except Unit (Domains × Option Assignment))
    (v : Var) : Domains → Assignment → List Word → Except Unit (Domains × Option Assignment)
  | d, asg, [] => .ok (d, some asg)
  | d, asg, w :: ws =>
      match consistent p (insertA asg v w) with
      | .error e => .error e
      | .ok true =>
          match bt d (insertA asg v w) with
          | .error e => .error e
          | .ok (d1, none) => .error ()
          | .ok (d1, some a2) =>
              match assignment_complete p a2 with
              | .error e => .error e
              | .ok true => .ok (d1, some a2)
              | .ok false =>
                  match popA a2 v with
                  | .error e => .error e
                  | .ok a3 => tryWords p bt v d1 a3 ws
      | .ok false =>
          match popA (insertA asg v w) v with
          | .error e => .error e
          | .ok a3 => tryWords p bt v d a3 ws

/-- `CrosswordCreator.backtrack`: return the assignment when it is
complete, otherwise select an unassigned slot and try its domain words in
order.  Every Python `return` returns the (single, shared) assignment
dict, so the `Option` payload of an `.ok` result is in fact always
`some`; `none` would be Python's `None`, whose further use crashes. -/
def backtrack (p : Puzzle) : Nat → Domains → Assignment → Except Unit (Domains × Option Assignment)
  | 0, _, _ => .error ()
  | fuel + 1, d, asg =>
      match assignment_complete p asg with
      | .error e => .error e
      | .ok true => .ok (d, some asg)
      | .ok false =>
          match select_unassigned_variable p d asg with
          | .error e => .error e
          | .ok v => tryWords p (fun d2 a2 => backtrack p fuel d2 a2) v d asg (d v)

/-- The search engine abstracted over the candidate-list producer used by
the word loop; `backtrack` is the instance that reads the slot's domain. -/
def backtrackW (p : Puzzle)
    (gen : Domains → Assignment → Var → Except Unit (List Word)) :
    Nat → Domains → Assignment → Except Unit (Domains × Option Assignment)
  | 0, _, _ => .error ()
  | fuel + 1, d, asg =>
      match assignment_complete p asg with
      | .error e => .error e
      | .ok true => .ok (d, some asg)
      | .ok false =>
          match select_unassigned_variable p d asg with
          | .error e => .error e
          | .ok v =>
              match gen d asg v with
              | .error e => .error e
              | .ok ws => tryWords p (fun d2 a2 => backtrackW p gen fuel d2 a2) v d asg ws

/-- Modelled from the spec: the search engine as the spec describes it,
trying each candidate word "in the order produced by
`order_domain_values`" rather than in raw domain order. -/
def backtrackSpec (p : Puzzle) : Nat → Domains → Assignment → Except Unit (Domains × Option Assignment) :=
  backtrackW p (fun d asg v => order_domain_values p d v asg)

/-- Total number of candidate words in the store over the puzzle's slots. -/
def totalDomSize (p : Puzzle) (d : Domains) : Nat :=
  (p.vars.map (fun v => (d v).length)).sum

/-- Fuel bound for the propagation loop (one unit per processed arc: the
initial arcs plus at most one batch of re-enqueues per removable word). -/
def ac3FuelOf (p : Puzzle) (d : Domains) : Nat :=
  (initArcs p.vars).length + (p.vars.length + 1) * totalDomSize p d + 1

/-- Fuel bound for the search recursion (its depth grows with the
assignment, which has at most one entry per slot). -/
def btFuelOf (p : Puzzle) : Nat := p.vars.length + 2

/-- `CrosswordCreator.solve`: node consistency, then `ac3` — whose Boolean
verdict is discarded — then backtracking search from the empty assignment;
the value returned is whatever `backtrack` returns. -/
def solve (p : Puzzle) : Except Unit (Option Assignment) :=
  let d1 := enforce_node_consistency p (initDomains p)
  match ac3 p (ac3FuelOf p d1) d1 [] with
  | .error e => .error e
  | .ok (_, d2) =>
      match backtrack p (btFuelOf p) d2 [] with
      | .error e => .error e
      | .ok (_, r) => .ok r

/-- Projection: the Boolean verdict of an `ac3` run (`none` on error). -/
def ac3Result (p : Puzzle) (fuel : Nat) (d : Domains) (arcs : List (Var × Var)) : Option Bool :=
  match ac3 p fuel d arcs with
  | .ok (b, _) => some b
  | .error _ => none

/-- Projection: one slot's domain after an `ac3` run (`none` on error). -/
def ac3DomAt (p : Puzzle) (fuel : Nat) (d : Domains) (arcs : List (Var × Var)) (v : Var) :
    Option (List Word) :=
  match ac3 p fuel d arcs with
  | .ok (_, d2) => some (d2 v)
  | .error _ => none

/-- Projection: the verdict of `assignment_complete` (`none` on error). -/
def completeChk (p : Puzzle) (asg : Assignment) : Option Bool :=
  (assignment_complete p asg).toOption

/-- Projection: the assignment returned by a `backtrack` run
(`none` on error, `some r` with `r` the returned Python value). -/
def btRes (p : Puzzle) (fuel : Nat) (d : Domains) (asg : Assignment) :
    Option (Option Assignment) :=
  match backtrack p fuel d asg with
  | .ok (_, r) => some r
  | .error _ => none

/-- Projection: the assignment returned by a `backtrackSpec` run. -/
def btSpecRes (p : Puzzle) (fuel : Nat) (d : Domains) (asg : Assignment) :
    Option (Option Assignment) :=
  match backtrackSpec p fuel d asg with
  | .ok (_, r) => some r
  | .error _ => none

/-- A single across slot of length 2 at the origin. -/
def vOne : Var := ⟨0, 0, 2, false⟩

/-- A one-slot puzzle whose only word has the wrong length, so the puzzle
has no solution. -/
def pOne : Puzzle := ⟨[vOne], [['a', 'b', 'c']], fun _ _ => none⟩

/-- The empty domain store. -/
def dEmpty : Domains := fun _ => []

/-- An across slot of length 2. -/
def vA : Var := ⟨0, 0, 2, false⟩

/-- A down slot of length 3 crossing `vA` at both slots' first character. -/
def vB : Var := ⟨0, 0, 3, true⟩

/-- A two-slot puzzle (lengths 2 and 3, crossing at index 0 of each) whose
word list leaves exactly one candidate per slot after node consistency,
and those candidates clash at the crossing. -/
def pAB : Puzzle :=
  ⟨[vA, vB], [['x', 'y'], ['a', 'b', 'c']],
    fun x y =>
      if (x = vA ∧ y = vB) ∨ (x = vB ∧ y = vA) then some (0, 0) else none⟩

/-- Domain store on `pAB` making the seeded arc direction consistent while
the reverse direction is not: the second word of `vB`'s domain has no
support in `vA`'s domain. -/
def dab : Domains :=
  fun v => if v = vA then [['a', 'b']] else [['a', 'b', 'c'], ['x', 'b', 'c']]

/-- Fully arc consistent domain store on `pAB`. -/
def dabW : Domains :=
  fun v => if v = vA then [['a', 'b']] else [['a', 'b', 'c']]

/-- An across slot of length 2 (for the two-word-slot instances). -/
def vC : Var := ⟨0, 0, 2, false⟩

/-- A down slot of length 2 crossing `vC` at both slots' first character. -/
def vD : Var := ⟨0, 0, 2, true⟩

/-- A two-slot puzzle, both slots of length 2, crossing at index 0. -/
def pCD : Puzzle :=
  ⟨[vC, vD],
    [['b', 'x'], ['a', 'x'], ['a', 'y'], ['a', 'z'], ['b', 'w']],
    fun x y =>
      if (x = vC ∧ y = vD) ∨ (x = vD ∧ y = vC) then some (0, 0) else none⟩

/-- Domain store on `pCD` where the raw domain order of `vC` and the
least-constraining-value order disagree, and both lead to solutions. -/
def dcd : Domains :=
  fun v =>
    if v = vC then [['b', 'x'], ['a', 'x']]
    else [['a', 'y'], ['a', 'z'], ['b', 'w']]

/-- A two-slot puzzle with no overlaps (independent slots). -/
def pSix : Puzzle :=
  ⟨[vC, vD], [['a', 'b'], ['c', 'd']], fun _ _ => none⟩

/-- Domain store where the first slot's domain is already empty. -/
def dSix : Domains :=
  fun v => if v = vC then [] else [['a', 'b'], ['c', 'd']]

/-- Domain store with both domains nonempty and the first strictly
smaller. -/
def dSixW : Domains :=
  fun v => if v = vC then [['a', 'b']] else [['a', 'b'], ['c', 'd']]

/-- An across slot of length 3. -/
def vE : Var := ⟨0, 0, 3, false⟩

/-- A down slot of length 3 crossing `vE` at index 2 of each. -/
def vF : Var := ⟨0, 2, 3, true⟩

/-- A two-slot puzzle crossing at index 2 of each slot. -/
def pEF : Puzzle :=
  ⟨[vE, vF], [['a', 'b', 'c'], ['x', 'y', 'z']],
    fun x y =>
      if (x = vE ∧ y = vF) ∨ (x = vF ∧ y = vE) then some (2, 2) else none⟩

/-- An assignment giving `vF` a word shorter than the overlap index, so
the overlap check of `consistent` reads past its end. -/
def asgEF : Assignment := [(vE, ['a', 'b', 'c']), (vF, ['x'])]

theorem lookupA_some_mem : ∀ (asg : Assignment) (v : Var) (w : Word),
    lookupA asg v = some w → (v, w) ∈ asg := by
  intro asg
  induction asg with
  | nil => intro v w h; cases h
  | cons e rest ih =>
      intro v w h
      obtain ⟨k, u⟩ := e
      by_cases hk : k = v
      · subst hk
        simp [lookupA] at h
        subst h
        exact List.mem_cons_self _ _
      · simp [lookupA, hk] at h
        exact List.mem_cons_of_mem _ (ih v w h)

theorem lookupA_of_mem_nodup : ∀ (asg : Assignment) (v : Var) (w : Word),
    (keysA asg).Nodup → (v, w) ∈ asg → lookupA asg v = some w := by
  intro asg
  induction asg with
  | nil => intro v w _ h; cases h
  | cons e rest ih =>
      intro v w hnd h
      obtain ⟨k, u⟩ := e
      have hnd2 : k ∉ keysA rest ∧ (keysA rest).Nodup := by
        simpa [keysA] using hnd
      rcases List.mem_cons.mp h with h1 | h1
      · cases h1
        simp [lookupA]
      · have hkv : k ≠ v := by
          intro hk
          subst hk
          exact hnd2.1 (by simpa [keysA] using List.mem_map_of_mem Prod.fst h1)
        simp [lookupA, hkv]
        exact ih v w hnd2.2 h1

theorem mem_neighbors (p : Puzzle) (v u : Var) :
    u ∈ neighbors p v ↔ u ∈ p.vars ∧ u ≠ v ∧ (p.overlaps u v).isSome := by
  simp [neighbors, List.mem_filter, and_assoc]

theorem overlapCharOk_true_iff (w wn : Word) (ov : Option (Nat × Nat)) :
    overlapCharOk w wn ov = .ok true ↔
      ov ≠ none ∧ ∀ i j, ov = some (i, j) → agrees w wn i j := by
  cases ov with
  | none => simp [overlapCharOk]
  | some ij =>
      obtain ⟨i, j⟩ := ij
      rw [overlapCharOk]
      cases hw : w.get? i with
      | none =>
          simp only [hw]
          constructor
          · intro h; cases h
          · intro h
            obtain ⟨hsome, _⟩ := (h.2 i j rfl)
            rw [hw] at hsome
            cases hsome
      | some c =>
          cases hwn : wn.get? j with
          | none =>
              simp only [hw, hwn]
              constructor
              · intro h; cases h
              · intro h
                have heq := (h.2 i j rfl).2
                rw [hw, hwn] at heq
                cases heq
          | some c' =>
              simp only [hw, hwn]
              constructor
              · intro h
                have hc : c = c' := by
                  have h2 := congrArg (fun x => match x with | .ok b => b | .error _ => false) h
                  simpa using h2
                subst hc
                refine ⟨by simp, ?_⟩
                intro a b hab
                obtain ⟨rfl, rfl⟩ : i = a ∧ j = b := by simpa using hab
                exact ⟨by rw [hw]; rfl, by rw [hw, hwn]⟩
              · intro h
                have heq := (h.2 i j rfl).2
                rw [hw, hwn] at heq
                obtain rfl : c = c' := by simpa using heq
                simp

theorem seqAnd_true_iff (x k : Except Unit Bool) :
    seqAnd x k = .ok true ↔ x = .ok true ∧ k = .ok true := by
  cases x with
  | error e => simp [seqAnd]
  | ok b => cases b <;> simp [seqAnd]

theorem checkNeighbors_true_iff (p : Puzzle) (asg : Assignment) (v : Var) (w : Word) :
    ∀ l, checkNeighbors p asg v w l = .ok true ↔
      ∀ n ∈ l, ∀ wn, lookupA asg n = some wn →
        p.overlaps v n ≠ none ∧ agreesAt p v n w wn := by
  intro l
  induction l with
  | nil => simp [checkNeighbors]
  | cons n rest ih =>
      rw [checkNeighbors]
      split
      · next hl =>
          rw [ih]
          constructor
          · intro h m hm wn hwn
            rcases List.mem_cons.mp hm with hm1 | hm1
            · subst hm1; rw [hl] at hwn; cases hwn
            · exact h m hm1 wn hwn
          · intro h m hm wn hwn
            exact h m (List.mem_cons_of_mem _ hm) wn hwn
      · next wn0 hl =>
          rw [seqAnd_true_iff, overlapCharOk_true_iff, ih]
          constructor
          · intro h m hm wn hwn
            rcases List.mem_cons.mp hm with hm1 | hm1
            · subst hm1
              rw [hl] at hwn
              cases hwn
              exact h.1
            · exact h.2 m hm1 wn hwn
          · intro h
            exact ⟨h n (List.mem_cons_self _ _) wn0 hl,
              fun m hm wn hwn => h m (List.mem_cons_of_mem _ hm) wn hwn⟩

theorem checkEntry_true_iff (p : Puzzle) (asg : Assignment) (v : Var) (w : Word) :
    checkEntry p asg v w = .ok true ↔
      w.length = v.length ∧ checkNeighbors p asg v w (neighbors p v) = .ok true := by
  rw [checkEntry]
  by_cases h : w.length = v.length
  · simp [h]
  · simp [h]

theorem consistentLoop_true_iff (p : Puzzle) (asg : Assignment) :
    ∀ l, consistentLoop p asg l = .ok true ↔
      ∀ e ∈ l, checkEntry p asg e.1 e.2 = .ok true := by
  intro l
  induction l with
  | nil => simp [consistentLoop]
  | cons e rest ih =>
      obtain ⟨v, w⟩ := e
      rw [consistentLoop, seqAnd_true_iff, ih]
      simp

theorem consistent_true_iff_parts (p : Puzzle) (asg : Assignment) :
    consistent p asg = .ok true ↔
      consistentLoop p asg asg = .ok true ∧
      numDistinct (asg.map Prod.snd) = asg.length := by
  rw [consistent]
  cases h : consistentLoop p asg asg with
  | error e0 => simp [h]
  | ok b =>
      cases b
      · simp [h]
      · simp [h]

theorem pAB_wf : Wf pAB := by
  constructor
  · intro x y i j h
    have h2 : (if (x = vA ∧ y = vB) ∨ (x = vB ∧ y = vA) then some (0, 0) else none)
        = some (i, j) := h
    split_ifs at h2 with hp
    · have h3 := Option.some.inj h2
      have hi : (0 : Nat) = i := congrArg Prod.fst h3
      have hj : (0 : Nat) = j := congrArg Prod.snd h3
      subst hi
      subst hj
      rcases hp with ⟨rfl, rfl⟩ | ⟨rfl, rfl⟩ <;> exact ⟨by decide, by decide⟩
  · intro x y i j h
    have h2 : (if (x = vA ∧ y = vB) ∨ (x = vB ∧ y = vA) then some (0, 0) else none)
        = some (i, j) := h
    split_ifs at h2 with hp
    · have h3 := Option.some.inj h2
      have hi : (0 : Nat) = i := congrArg Prod.fst h3
      have hj : (0 : Nat) = j := congrArg Prod.snd h3
      subst hi
      subst hj
      rcases hp with ⟨rfl, rfl⟩ | ⟨rfl, rfl⟩ <;> decide

/-- C7: for every assignment (dict, so with distinct keys) over a
well-formed structural model, `consistent` returns true exactly when all
three validator conditions hold — every assigned word's length equals its
slot's length, every pair of assigned neighboring slots agrees at the
recorded overlap indices, and the number of distinct assigned values
equals the number of entries. -/
theorem consistent_iff_validator (p : Puzzle) (asg : Assignment) (hwf : Wf p)
    (hnd : (keysA asg).Nodup) :
    consistent p asg = .ok true ↔
      (∀ e ∈ asg, (e.2 : Word).length = (e.1 : Var).length) ∧
      (∀ e ∈ asg, ∀ e2 ∈ asg, e2.1 ∈ neighbors p e.1 → agreesAt p e.1 e2.1 e.2 e2.2) ∧
      numDistinct (asg.map Prod.snd) = asg.length := by
  rw [consistent_true_iff_parts, consistentLoop_true_iff]
  constructor
  · rintro ⟨h1, h2⟩
    refine ⟨?_, ?_, h2⟩
    · intro e he
      exact ((checkEntry_true_iff p asg e.1 e.2).mp (h1 e he)).1
    · rintro ⟨v, w⟩ he ⟨v2, w2⟩ he2 hn
      have hck := ((checkEntry_true_iff p asg v w).mp (h1 _ he)).2
      have hlk := lookupA_of_mem_nodup asg v2 w2 hnd he2
      exact ((checkNeighbors_true_iff p asg v w (neighbors p v)).mp hck v2 hn w2 hlk).2
  · rintro ⟨h1, h2, h3⟩
    refine ⟨?_, h3⟩
    rintro ⟨v, w⟩ he
    rw [checkEntry_true_iff]
    refine ⟨h1 _ he, ?_⟩
    rw [checkNeighbors_true_iff]
    intro n hn wn hwn
    have hmem : (n, wn) ∈ asg := lookupA_some_mem asg n wn hwn
    constructor
    · obtain ⟨_, hne, hs⟩ := (mem_neighbors p v n).mp hn
      obtain ⟨ij, hov⟩ := Option.isSome_iff_exists.mp hs
      obtain ⟨i, j⟩ := ij
      have hsym := hwf.symm n v i j hov
      simp [hsym]
    · exact h2 (v, w) he (n, wn) hmem hn

/-- C7 witness: a concrete two-slot assignment on which all three
validator conditions hold and `consistent` indeed returns true. -/
theorem consistent_iff_validator_w :
    consistent pAB [(vA, ['a', 'b']), (vB, ['a', 'b', 'c'])] = .ok true :=
  (consistent_iff_validator pAB [(vA, ['a', 'b']), (vB, ['a', 'b', 'c'])]
    pAB_wf (by decide)).mpr (by decide)

theorem keepMatching_subset (i j : Nat) (dy : List Word) :
    ∀ (ws kept : List Word), keepMatching i j dy ws = .ok kept → ∀ w ∈ kept, w ∈ ws := by
  intro ws
  induction ws with
  | nil =>
      intro kept h w hw
      rw [keepMatching] at h
      cases h
      cases hw
  | cons w0 rest ih =>
      intro kept h w hw
      rw [keepMatching] at h
      split at h
      · exact Except.noConfusion h
      · split at h
        · exact Except.noConfusion h
        · next ws2 hrest =>
            cases h
            split at hw
            · rcases List.mem_cons.mp hw with h1 | h1
              · exact h1 ▸ List.mem_cons_self _ _
              · exact List.mem_cons_of_mem _ (ih ws2 hrest w h1)
            · exact List.mem_cons_of_mem _ (ih ws2 hrest w hw)

theorem revise_shrinks (p : Puzzle) (d : Domains) (x y : Var) (d1 : Domains) (r : Bool)
    (h : revise p d x y = .ok (d1, r)) : ∀ v w, w ∈ d1 v → w ∈ d v := by
  rw [revise] at h
  split at h
  · cases h
    intro v w hw
    exact hw
  · next i j hov =>
      split at h
      · exact Except.noConfusion h
      · next kept hk =>
          cases h
          intro v w hw
          rw [updateD] at hw
          split at hw
          · next hv =>
              rw [hv]
              exact keepMatching_subset i j (d y) (d x) kept hk w hw
          · exact hw

theorem ac3Loop_shrinks (p : Puzzle) :
    ∀ (fuel : Nat) (W : List (Var × Var)) (d : Domains) (b : Bool) (d1 : Domains),
      ac3Loop p fuel d W = .ok (b, d1) → ∀ v w, w ∈ d1 v → w ∈ d v := by
  intro fuel
  induction fuel with
  | zero => intro W d b d1 h; exact Except.noConfusion h
  | succ fuel ih =>
      intro W d b d1 h
      cases W with
      | nil =>
          rw [ac3Loop] at h
          cases h
          intro v w hw
          exact hw
      | cons arc rest =>
          obtain ⟨x, y⟩ := arc
          rw [ac3Loop] at h
          split at h
          · exact Except.noConfusion h
          · next d2 rev hrev =>
              by_cases hr : rev = true
              · subst hr
                rw [if_pos rfl] at h
                split at h
                · cases h
                  exact revise_shrinks p d x y _ true hrev
                · intro v w hw
                  exact revise_shrinks p d x y d2 true hrev v w (ih _ d2 b d1 h v w hw)
              · rw [if_neg hr] at h
                intro v w hw
                exact revise_shrinks p d x y d2 rev hrev v w (ih _ d2 b d1 h v w hw)

/-- C8: every consistency operation only shrinks domains — after
`enforce_node_consistency`, after a successful `revise`, and after an
`ac3` run, each slot's domain is a subset of what it was before. -/
theorem consistency_only_shrinks (p : Puzzle) (d : Domains) (x y : Var)
    (fuel : Nat) (seed : List (Var × Var)) :
    (∀ v w, w ∈ enforce_node_consistency p d v → w ∈ d v) ∧
    (∀ d1 r, revise p d x y = .ok (d1, r) → ∀ v w, w ∈ d1 v → w ∈ d v) ∧
    (∀ b d2, ac3 p fuel d seed = .ok (b, d2) → ∀ v w, w ∈ d2 v → w ∈ d v) := by
  refine ⟨?_, ?_, ?_⟩
  · intro v w hw
    exact (List.mem_filter.mp hw).1
  · intro d1 r h
    exact revise_shrinks p d x y d1 r h
  · intro b d2 h
    exact ac3Loop_shrinks p fuel _ d b d2 h

/-- C8 witness: on a concrete store, a word surviving the concrete
`revise` and `ac3` runs is certified (via the theorem) to have been in the
original domains. -/
theorem consistency_only_shrinks_w :
    (['a', 'b'] : Word) ∈ dabW vA ∧ (['a', 'b', 'c'] : Word) ∈ dabW vB := by
  have h := consistency_only_shrinks pAB dabW vA vB 2 []
  exact ⟨h.2.1 (updateD dabW vA [['a', 'b']]) false rfl vA ['a', 'b'] (by decide),
    h.2.2 true (updateD dabW vA [['a', 'b']]) rfl vB ['a', 'b', 'c'] (by decide)⟩

/-- C1 (code bug evaluation): on a one-slot puzzle whose word list has no
word of the right length — an unsolvable instance — `solve` does not
return the promised `None` but the empty partial assignment dict, which is
not a complete assignment. -/
theorem solve_returns_partial_dict_on_unsolvable :
    solve pOne = .ok (some []) ∧ completeChk pOne [] = some false :=
  ⟨rfl, rfl⟩

/-- C4 (code bug evaluation): with the single slot's domain already empty,
`ac3` (with no seed arcs) returns success and leaves the domain empty,
contradicting its contract that it returns failure when a domain is
empty. -/
theorem ac3_succeeds_with_empty_domain :
    ac3Result pOne 1 dEmpty [] = some true ∧
    ac3DomAt pOne 1 dEmpty [] vOne = some [] ∧
    vOne ∈ pOne.vars :=
  ⟨rfl, rfl, by decide⟩

/-- C2 counterexample: on `pAB` the propagation step empties a domain, so
`ac3` (as invoked by `solve`, same store and fuel) reports failure — yet
`solve` does not report the no-solution outcome: it still runs the search
and returns a (non-`None`) assignment dict. -/
theorem solve_ignores_ac3_failure_cex :
    ac3Result pAB (ac3FuelOf pAB (enforce_node_consistency pAB (initDomains pAB)))
      (enforce_node_consistency pAB (initDomains pAB)) [] = some false ∧
    solve pAB = .ok (some []) ∧ solve pAB ≠ .ok none := by
  refine ⟨rfl, rfl, ?_⟩
  intro h
  rw [show solve pAB = .ok (some []) from rfl] at h
  exact Option.noConfusion (Except.ok.inj h)

/-- C3 counterexample: `ac3` with no seed arcs succeeds on the store
`dab`, but the pair of overlapping slots is not arc consistent in both
directions — the word "xbc" remains in `vB`'s domain although no word of
`vA`'s final domain agrees with it at the recorded overlap (0,0). -/
theorem ac3_reverse_arc_unsupported_cex :
    ac3Result pAB 9 dab [] = some true ∧
    pAB.overlaps vB vA = some (0, 0) ∧
    ac3DomAt pAB 9 dab [] vB = some [['a', 'b', 'c'], ['x', 'b', 'c']] ∧
    ac3DomAt pAB 9 dab [] vA = some [['a', 'b']] ∧
    ¬ ∃ u ∈ ([['a', 'b']] : List Word), agrees ['x', 'b', 'c'] u 0 0 := by
  refine ⟨rfl, by decide, rfl, rfl, by decide⟩

/-- C5 counterexample: on `pCD` the search tries the selected slot's words
in raw domain order, not in the least-constraining-value order — the
spec-described engine (identical but for consulting `order_domain_values`)
returns a different solution than the implemented one. -/
theorem backtrack_ignores_value_order_cex :
    btRes pCD 4 dcd [] = some (some [(vC, ['b', 'x']), (vD, ['b', 'w'])]) ∧
    btSpecRes pCD 4 dcd [] = some (some [(vC, ['a', 'x']), (vD, ['a', 'y'])]) ∧
    (order_domain_values pCD dcd vC []).toOption = some [['a', 'x'], ['b', 'x']] ∧
    dcd vC = [['b', 'x'], ['a', 'x']] ∧
    btRes pCD 4 dcd [] ≠ btSpecRes pCD 4 dcd [] := by
  refine ⟨rfl, rfl, rfl, rfl, by decide⟩

/-- C6 counterexample: with the first slot's domain already empty,
`select_unassigned_variable` skips it (the `if not shortest:` truthiness
test resets the running minimum) and returns a slot with a strictly
larger domain, violating the minimum-remaining-values claim. -/
theorem select_skips_empty_domain_cex :
    select_unassigned_variable pSix dSix [] = .ok vD ∧
    vC ∈ pSix.vars ∧ lookupA [] vC = none ∧
    dSix vC = [] ∧ (dSix vD).length = 2 ∧ vD ≠ vC := by
  refine ⟨rfl, by decide, rfl, rfl, rfl, by decide⟩

/-- C10 counterexample: `consistent` is not total on arbitrary partial
assignments — when an assigned neighbor's word is shorter than the
recorded overlap index, the character comparison reads past its end and
raises (the error outcome), instead of evaluating to a Boolean. -/
theorem consistent_index_error_cex :
    consistent pEF asgEF = .error () ∧
    pEF.overlaps vE vF = some (2, 2) ∧
    (['x'] : Word).get? 2 = none := by
  refine ⟨rfl, by decide, rfl⟩

theorem mem_insortBy (key : α → Nat) (x : α) :
    ∀ (l : List α) (a : α), a ∈ insortBy key x l ↔ a = x ∨ a ∈ l := by
  intro l
  induction l with
  | nil => simp [insortBy]
  | cons y ys ih =>
      intro a
      rw [insortBy]
      split
      · simp [List.mem_cons]
      · simp only [List.mem_cons, ih]
        tauto

theorem mem_isortBy (key : α → Nat) :
    ∀ (l : List α) (a : α), a ∈ isortBy key l ↔ a ∈ l := by
  intro l
  induction l with
  | nil => simp [isortBy]
  | cons y ys ih =>
      intro a
      rw [isortBy, mem_insortBy]
      simp only [List.mem_cons, ih]

theorem pairwise_insortBy (key : α → Nat) (x : α) :
    ∀ l, List.Pairwise (fun a b => key a ≤ key b) l →
      List.Pairwise (fun a b => key a ≤ key b) (insortBy key x l) := by
  intro l
  induction l with
  | nil => intro _; simp [insortBy]
  | cons y ys ih =>
      intro hp
      obtain ⟨hy, hys⟩ := List.pairwise_cons.mp hp
      rw [insortBy]
      split
      · next hxy =>
          refine List.Pairwise.cons ?_ hp
          intro b hb
          rcases List.mem_cons.mp hb with rfl | hb2
          · exact hxy
          · exact le_trans hxy (hy b hb2)
      · next hxy =>
          refine List.Pairwise.cons ?_ (ih hys)
          intro b hb
          rcases (mem_insortBy key x ys b).mp hb with rfl | hb2
          · exact (not_le.mp hxy).le
          · exact hy b hb2

theorem pairwise_isortBy (key : α → Nat) :
    ∀ l, List.Pairwise (fun a b => key a ≤ key b) (isortBy key l) := by
  intro l
  induction l with
  | nil => simp [isortBy]
  | cons y ys ih => exact pairwise_insortBy key y (isortBy key ys) ih

theorem isort_rev_head_max (key : α → Nat) (l : List α) (b : α)
    (h : ((isortBy key l).reverse).head? = some b) :
    b ∈ l ∧ ∀ a ∈ l, key a ≤ key b := by
  have hp : List.Pairwise (fun a c => key c ≤ key a) (isortBy key l).reverse :=
    List.pairwise_reverse.mpr (pairwise_isortBy key l)
  cases hrev : (isortBy key l).reverse with
  | nil => rw [hrev] at h; cases h
  | cons hd tl =>
      rw [hrev] at h hp
      obtain rfl : hd = b := Option.some.inj h
      constructor
      · have hb : hd ∈ (isortBy key l).reverse := by
          rw [hrev]; exact List.mem_cons_self _ _
        exact (mem_isortBy key l hd).mp (List.mem_reverse.mp hb)
      · intro a ha
        have ha2 : a ∈ (isortBy key l).reverse := by
          rw [List.mem_reverse]
          exact (mem_isortBy key l a).mpr ha
        rw [hrev] at ha2
        rcases List.mem_cons.mp ha2 with rfl | ha3
        · exact le_refl _
        · exact (List.pairwise_cons.mp hp).1 a ha3

theorem shortestLen_isSome (d : Domains) :
    ∀ (l : List Var) (s : Option Nat), l ≠ [] ∨ s.isSome →
      ∃ k, shortestLen d l s = some k := by
  intro l
  induction l with
  | nil =>
      intro s hs
      rcases hs with hs | hs
      · exact absurd rfl hs
      · obtain ⟨k, hk⟩ := Option.isSome_iff_exists.mp hs
        exact ⟨k, by rw [shortestLen, hk]⟩
  | cons v rest ih =>
      intro s _
      cases s with
      | none => exact ih (some (d v).length) (Or.inr rfl)
      | some k =>
          rw [shortestLen]
          by_cases hk : k = 0
          · simp only [hk, if_pos rfl]
            exact ih (some (d v).length) (Or.inr rfl)
          · simp only [if_neg hk]
            exact ih _ (Or.inr rfl)

theorem shortestLen_attained (d : Domains) (C : Nat → Prop) :
    ∀ (l : List Var) (s : Option Nat), (∀ k, s = some k → C k) →
      (∀ v ∈ l, C (d v).length) →
      ∀ k, shortestLen d l s = some k → C k := by
  intro l
  induction l with
  | nil =>
      intro s hs _ k hk
      rw [shortestLen] at hk
      exact hs k hk
  | cons v rest ih =>
      intro s hs hl k hk
      cases s with
      | none =>
          rw [shortestLen] at hk
          exact ih (some (d v).length)
            (fun k0 h0 => by cases h0; exact hl v (List.mem_cons_self _ _))
            (fun u hu => hl u (List.mem_cons_of_mem _ hu)) k hk
      | some k0 =>
          rw [shortestLen] at hk
          by_cases h0 : k0 = 0
          · rw [if_pos h0] at hk
            exact ih (some (d v).length)
              (fun k1 h1 => by cases h1; exact hl v (List.mem_cons_self _ _))
              (fun u hu => hl u (List.mem_cons_of_mem _ hu)) k hk
          · rw [if_neg h0] at hk
            refine ih _ ?_ (fun u hu => hl u (List.mem_cons_of_mem _ hu)) k hk
            intro k1 h1
            cases h1
            split
            · exact hl v (List.mem_cons_self _ _)
            · exact hs k0 rfl

theorem shortestLen_le (d : Domains) :
    ∀ (l : List Var) (s : Option Nat) (k : Nat),
      (∀ v ∈ l, (d v).length ≠ 0) → (∀ k0, s = some k0 → k0 ≠ 0) →
      shortestLen d l s = some k →
      (∀ v ∈ l, k ≤ (d v).length) ∧ (∀ k0, s = some k0 → k ≤ k0) := by
  intro l
  induction l with
  | nil =>
      intro s k _ _ hk
      rw [shortestLen] at hk
      exact ⟨fun v hv => absurd hv (List.not_mem_nil v), fun k0 h0 => by
        rw [h0] at hk
        cases hk
        exact le_refl _⟩
  | cons v rest ih =>
      intro s k hl hs hk
      cases s with
      | none =>
          rw [shortestLen] at hk
          have hrec := ih (some (d v).length) k
            (fun u hu => hl u (List.mem_cons_of_mem _ hu))
            (fun k0 h0 => by cases h0; exact hl v (List.mem_cons_self _ _)) hk
          refine ⟨?_, fun k0 h0 => by cases h0⟩
          intro u hu
          rcases List.mem_cons.mp hu with rfl | hu2
          · exact hrec.2 _ rfl
          · exact hrec.1 u hu2
      | some k0 =>
          rw [shortestLen] at hk
          have hk0 := hs k0 rfl
          rw [if_neg hk0] at hk
          have hite : (if (d v).length < k0 then (d v).length else k0) ≠ 0 := by
            split
            · exact hl v (List.mem_cons_self _ _)
            · exact hk0
          have hrec := ih _ k (fun u hu => hl u (List.mem_cons_of_mem _ hu))
            (fun k1 h1 => by cases h1; exact hite) hk
          have hkite := hrec.2 _ rfl
          constructor
          · intro u hu
            rcases List.mem_cons.mp hu with rfl | hu2
            · by_cases hlt : (d u).length < k0
              · rw [if_pos hlt] at hkite; exact hkite
              · rw [if_neg hlt] at hkite
                exact le_trans hkite (not_lt.mp hlt)
            · exact hrec.1 u hu2
          · intro k1 h1
            cases h1
            by_cases hlt : (d v).length < k0
            · rw [if_pos hlt] at hkite
              exact le_trans hkite hlt.le
            · rw [if_neg hlt] at hkite
              exact hkite

theorem select_eq_head (p : Puzzle) (d : Domains) (asg : Assignment) :
    select_unassigned_variable p d asg =
      (match ((isortBy (fun vn => vn.2)
          (((unassignedVars p asg).filter
              (fun v => decide (some (d v).length = shortestLen d (unassignedVars p asg) none))).map
            (fun v => (v, (neighbors p v).length)))).reverse).head? with
        | none => .error ()
        | some b => .ok b.1) := rfl

theorem select_head_spec (p : Puzzle) (d : Domains) (asg : Assignment)
    (hne : unassignedVars p asg ≠ []) :
    ∃ k v, shortestLen d (unassignedVars p asg) none = some k ∧
      select_unassigned_variable p d asg = .ok v ∧
      v ∈ unassignedVars p asg ∧ (d v).length = k ∧
      (∀ u ∈ unassignedVars p asg, (d u).length = k →
        (neighbors p u).length ≤ (neighbors p v).length) := by
  obtain ⟨k, hsh⟩ := shortestLen_isSome d (unassignedVars p asg) none (Or.inl hne)
  obtain ⟨u0, hu0, hu0k⟩ :=
    shortestLen_attained d (fun k0 => ∃ u ∈ unassignedVars p asg, (d u).length = k0)
      (unassignedVars p asg) none (fun k0 h0 => by cases h0)
      (fun u hu => ⟨u, hu, rfl⟩) k hsh
  have hbv : u0 ∈ (unassignedVars p asg).filter
      (fun v => decide (some (d v).length = shortestLen d (unassignedVars p asg) none)) := by
    rw [List.mem_filter]
    refine ⟨hu0, ?_⟩
    rw [hsh, hu0k]
    simp
  have hmem2 : (u0, (neighbors p u0).length) ∈
      ((unassignedVars p asg).filter
        (fun v => decide (some (d v).length = shortestLen d (unassignedVars p asg) none))).map
        (fun v => (v, (neighbors p v).length)) :=
    List.mem_map_of_mem _ hbv
  obtain ⟨b, hb⟩ : ∃ b, ((isortBy (fun vn => vn.2)
      (((unassignedVars p asg).filter
          (fun v => decide (some (d v).length = shortestLen d (unassignedVars p asg) none))).map
        (fun v => (v, (neighbors p v).length)))).reverse).head? = some b := by
    cases hq : ((isortBy (fun vn => vn.2)
        (((unassignedVars p asg).filter
            (fun v => decide (some (d v).length = shortestLen d (unassignedVars p asg) none))).map
          (fun v => (v, (neighbors p v).length)))).reverse) with
    | nil =>
        have hm := List.mem_reverse.mpr ((mem_isortBy (fun vn => vn.2) _ _).mpr hmem2)
        rw [hq] at hm
        cases hm
    | cons b t => exact ⟨b, rfl⟩
  have hmax := isort_rev_head_max (fun vn => vn.2) _ b hb
  obtain ⟨v, hvmem, hveq⟩ := List.mem_map.mp hmax.1
  subst hveq
  have hvfil := List.mem_filter.mp hvmem
  have hvk : (d v).length = k := by
    have h2 := hvfil.2
    rw [hsh] at h2
    simpa using h2
  refine ⟨k, v, hsh, ?_, hvfil.1, hvk, ?_⟩
  · rw [select_eq_head, hb]
  · intro u hu huk
    have hufil : u ∈ (unassignedVars p asg).filter
        (fun w => decide (some (d w).length = shortestLen d (unassignedVars p asg) none)) := by
      rw [List.mem_filter]
      refine ⟨hu, ?_⟩
      rw [hsh, huk]
      simp
    exact hmax.2 (u, (neighbors p u).length) (List.mem_map_of_mem _ hufil)

theorem unassigned_mem (p : Puzzle) (asg : Assignment) (v : Var)
    (h : v ∈ unassignedVars p asg) : v ∈ p.vars ∧ lookupA asg v = none := by
  have h2 := List.mem_filter.mp h
  refine ⟨h2.1, ?_⟩
  have h3 := h2.2
  cases hl : lookupA asg v with
  | none => rfl
  | some w => rw [hl] at h3; simp at h3

/-- C6 (amended): whenever at least one slot is unassigned and no
unassigned slot's domain is empty, `select_unassigned_variable` returns an
unassigned slot of minimal remaining domain size, and among the minimal
ones a slot with the most neighbors. -/
theorem select_mrv_degree (p : Puzzle) (d : Domains) (asg : Assignment)
    (hne : unassignedVars p asg ≠ [])
    (hnz : ∀ u ∈ unassignedVars p asg, (d u).length ≠ 0) :
    ∃ v, select_unassigned_variable p d asg = .ok v ∧
      v ∈ p.vars ∧ lookupA asg v = none ∧
      (∀ u ∈ unassignedVars p asg, (d v).length ≤ (d u).length) ∧
      (∀ u ∈ unassignedVars p asg, (d u).length = (d v).length →
        (neighbors p u).length ≤ (neighbors p v).length) := by
  obtain ⟨k, v, hsh, hsel, hvmem, hvk, hdeg⟩ := select_head_spec p d asg hne
  have hle := shortestLen_le d (unassignedVars p asg) none k hnz
    (fun k0 h0 => by cases h0) hsh
  obtain ⟨hvars, hlk⟩ := unassigned_mem p asg v hvmem
  refine ⟨v, hsel, hvars, hlk, ?_, ?_⟩
  · intro u hu
    rw [hvk]
    exact hle.1 u hu
  · intro u hu huk
    exact hdeg u hu (by rw [huk, hvk])

/-- C6 witness: on a concrete store with nonempty domains the selected
slot is the minimal-domain one. -/
theorem select_mrv_degree_w :
    ∃ v, select_unassigned_variable pSix dSixW [] = .ok v ∧
      v ∈ pSix.vars ∧ lookupA [] v = none ∧
      (∀ u ∈ unassignedVars pSix [], (dSixW v).length ≤ (dSixW u).length) ∧
      (∀ u ∈ unassignedVars pSix [], (dSixW u).length = (dSixW v).length →
        (neighbors pSix u).length ≤ (neighbors pSix v).length) :=
  select_mrv_degree pSix dSixW [] (by decide) (by decide)

theorem overlapCharOk_of_length (w wn : Word) (i j : Nat)
    (hi : i < w.length) (hj : j < wn.length) :
    ∃ bb, overlapCharOk w wn (some (i, j)) = .ok bb := by
  obtain ⟨c, hc⟩ : ∃ c, w.get? i = some c := by
    cases hg : w.get? i with
    | none => rw [List.get?_eq_none] at hg; omega
    | some c => exact ⟨c, rfl⟩
  obtain ⟨c2, hc2⟩ : ∃ c2, wn.get? j = some c2 := by
    cases hg : wn.get? j with
    | none => rw [List.get?_eq_none] at hg; omega
    | some c2 => exact ⟨c2, rfl⟩
  have hc3 : w[i]? = some c := by rw [← List.get?_eq_getElem?]; exact hc
  have hc4 : wn[j]? = some c2 := by rw [← List.get?_eq_getElem?]; exact hc2
  exact ⟨decide (c = c2), by simp [overlapCharOk, hc3, hc4]⟩

theorem checkNeighbors_no_error (p : Puzzle) (asg : Assignment) (hwf : Wf p)
    (hlen : ∀ e ∈ asg, (e.2 : Word).length = (e.1 : Var).length)
    (v : Var) (w : Word) (hw : w.length = v.length) :
    ∀ l, (∀ n ∈ l, n ∈ neighbors p v) → ∃ b, checkNeighbors p asg v w l = .ok b := by
  intro l
  induction l with
  | nil => exact fun _ => ⟨true, rfl⟩
  | cons n rest ih =>
      intro hsub
      rw [checkNeighbors]
      split
      · exact ih (fun m hm => hsub m (List.mem_cons_of_mem _ hm))
      · next wn hl =>
          obtain ⟨hnv, hne2, hs⟩ := (mem_neighbors p v n).mp (hsub n (List.mem_cons_self _ _))
          obtain ⟨ij, hov⟩ := Option.isSome_iff_exists.mp hs
          obtain ⟨a, c⟩ := ij
          have hov2 := hwf.symm n v a c hov
          obtain ⟨hidx1, hidx2⟩ := hwf.idx v n c a hov2
          have hwn : wn.length = n.length := hlen (n, wn) (lookupA_some_mem asg n wn hl)
          obtain ⟨bb, hbb⟩ :=
            overlapCharOk_of_length w wn c a (by omega) (by omega)
          rw [hov2, hbb]
          cases bb
          · exact ⟨false, rfl⟩
          · obtain ⟨b2, hb2⟩ := ih (fun m hm => hsub m (List.mem_cons_of_mem _ hm))
            exact ⟨b2, by rw [seqAnd, hb2]⟩

theorem consistentLoop_no_error (p : Puzzle) (asg : Assignment) (hwf : Wf p)
    (hlen : ∀ e ∈ asg, (e.2 : Word).length = (e.1 : Var).length) :
    ∀ l, ∃ b, consistentLoop p asg l = .ok b := by
  intro l
  induction l with
  | nil => exact ⟨true, rfl⟩
  | cons e rest ih =>
      obtain ⟨v, w⟩ := e
      rw [consistentLoop]
      by_cases hlw : w.length = v.length
      · obtain ⟨bb, hbb⟩ := checkNeighbors_no_error p asg hwf hlen v w hlw
          (neighbors p v) (fun n hn => hn)
        have hce : checkEntry p asg v w = .ok bb := by
          rw [checkEntry, if_neg (by simp [hlw])]
          exact hbb
        rw [hce]
        cases bb
        · exact ⟨false, rfl⟩
        · obtain ⟨b2, hb2⟩ := ih
          exact ⟨b2, by rw [seqAnd, hb2]⟩
      · have hce : checkEntry p asg v w = .ok false := by
          rw [checkEntry, if_pos hlw]
        rw [hce]
        exact ⟨false, rfl⟩

theorem consistent_no_error (p : Puzzle) (asg : Assignment) (hwf : Wf p)
    (hlen : ∀ e ∈ asg, (e.2 : Word).length = (e.1 : Var).length) :
    ∃ b, consistent p asg = .ok b := by
  obtain ⟨b, hb⟩ := consistentLoop_no_error p asg hwf hlen asg
  rw [consistent, hb]
  cases b
  · exact ⟨false, rfl⟩
  · exact ⟨decide (numDistinct (asg.map Prod.snd) = asg.length), rfl⟩

/-- C10 (amended): the two core read-only operations cannot raise on the
states the search reaches — `consistent` evaluates to a Boolean on every
assignment whose words match their slots' lengths (true of every
assignment built from node-consistent domains), and
`select_unassigned_variable` evaluates to a slot whenever at least one
slot is unassigned.  (On arbitrary assignments `consistent` can raise —
see the counterexample.) -/
theorem core_ops_no_runtime_error (p : Puzzle) (asg : Assignment) (d : Domains)
    (hwf : Wf p) :
    ((∀ e ∈ asg, (e.2 : Word).length = (e.1 : Var).length) →
      ∃ b, consistent p asg = .ok b) ∧
    (unassignedVars p asg ≠ [] →
      ∃ v, select_unassigned_variable p d asg = .ok v) := by
  constructor
  · intro hlen
    exact consistent_no_error p asg hwf hlen
  · intro hne
    obtain ⟨k, v, _, hsel, _, _, _⟩ := select_head_spec p d asg hne
    exact ⟨v, hsel⟩

/-- C10 witness: concrete instantiations of both halves. -/
theorem core_ops_no_runtime_error_w :
    (∃ b, consistent pAB [(vA, ['a', 'b'])] = .ok b) ∧
    (∃ v, select_unassigned_variable pAB dabW [] = .ok v) :=
  ⟨(core_ops_no_runtime_error pAB [(vA, ['a', 'b'])] dabW pAB_wf).1 (by decide),
    (core_ops_no_runtime_error pAB [] dabW pAB_wf).2 (by decide)⟩

theorem lookupA_insertA_self (asg : Assignment) (v : Var) (w : Word) :
    lookupA (insertA asg v w) v = some w := by
  induction asg with
  | nil => simp [insertA, lookupA]
  | cons e rest ih =>
      obtain ⟨k, u⟩ := e
      by_cases hk : k = v
      · subst hk
        simp [insertA, lookupA]
      · simp [insertA, lookupA, hk]
        exact ih

theorem eraseA_insertA (asg : Assignment) (v : Var) (w : Word)
    (hun : lookupA asg v = none) : eraseA (insertA asg v w) v = asg := by
  induction asg with
  | nil => simp [insertA, eraseA]
  | cons e rest ih =>
      obtain ⟨k, u⟩ := e
      rw [lookupA] at hun
      by_cases hk : k = v
      · rw [if_pos hk] at hun
        cases hun
      · rw [if_neg hk] at hun
        rw [insertA, if_neg hk, eraseA, if_neg hk, ih hun]

theorem popA_insertA (asg : Assignment) (v : Var) (w : Word)
    (hun : lookupA asg v = none) : popA (insertA asg v w) v = .ok asg := by
  rw [popA, if_pos (by rw [lookupA_insertA_self]; rfl), eraseA_insertA asg v w hun]

theorem select_ok_unassigned (p : Puzzle) (d : Domains) (asg : Assignment) (v : Var)
    (h : select_unassigned_variable p d asg = .ok v) : v ∈ unassignedVars p asg := by
  rw [select_eq_head] at h
  split at h
  · exact Except.noConfusion h
  · next b hb =>
      cases h
      have hmax := isort_rev_head_max (fun vn => vn.2) _ b hb
      obtain ⟨u, hufil, hueq⟩ := List.mem_map.mp hmax.1
      rw [← hueq]
      exact (List.mem_filter.mp hufil).1

theorem tryWords_frame (p : Puzzle) (v : Var)
    (bt : Domains → Assignment → Except Unit (Domains × Option Assignment))
    (hbt : ∀ d a d2 r, bt d a = .ok (d2, r) → d2 = d ∧ ∃ a2, r = some a2 ∧
      (assignment_complete p a2 = .ok true ∨ a2 = a)) :
    ∀ (ws : List Word) (d : Domains) (asg : Assignment) (d2 : Domains)
      (r : Option Assignment),
      lookupA asg v = none →
      tryWords p bt v d asg ws = .ok (d2, r) →
      d2 = d ∧ ∃ a2, r = some a2 ∧
        (assignment_complete p a2 = .ok true ∨ a2 = asg) := by
  intro ws
  induction ws with
  | nil =>
      intro d asg d2 r hun h
      rw [tryWords] at h
      cases h
      exact ⟨rfl, asg, rfl, Or.inr rfl⟩
  | cons w rest ih =>
      intro d asg d2 r hun h
      rw [tryWords] at h
      split at h
      · exact Except.noConfusion h
      · split at h
        · exact Except.noConfusion h
        · exact Except.noConfusion h
        · next d1 a2 hbtres =>
            split at h
            · exact Except.noConfusion h
            · next hcomp =>
                cases h
                refine ⟨(hbt d (insertA asg v w) _ _ hbtres).1, _, rfl, Or.inl hcomp⟩
            · next hcomp =>
                split at h
                · exact Except.noConfusion h
                · next a3 hpop =>
                    obtain ⟨hd1, a4, ha4, hor⟩ :=
                      hbt d (insertA asg v w) d1 (some a2) hbtres
                    obtain rfl : a4 = a2 := (Option.some.inj ha4).symm
                    rcases hor with hcompl | heq
                    · rw [hcompl] at hcomp
                      exact absurd (Except.ok.inj hcomp) (by simp)
                    · subst heq
                      rw [popA_insertA asg v w hun] at hpop
                      obtain rfl : asg = a3 := Except.ok.inj hpop
                      rw [hd1] at h
                      exact ih d asg d2 r hun h
      · split at h
        · exact Except.noConfusion h
        · next a3 hpop =>
            rw [popA_insertA asg v w hun] at hpop
            obtain rfl : asg = a3 := Except.ok.inj hpop
            exact ih d asg d2 r hun h

theorem backtrack_master (p : Puzzle) :
    ∀ (fuel : Nat) (d : Domains) (asg : Assignment) (d2 : Domains)
      (r : Option Assignment),
      backtrack p fuel d asg = .ok (d2, r) →
      d2 = d ∧ ∃ a2, r = some a2 ∧
        (assignment_complete p a2 = .ok true ∨ a2 = asg) := by
  intro fuel
  induction fuel with
  | zero => intro d asg d2 r h; exact Except.noConfusion h
  | succ fuel ih =>
      intro d asg d2 r h
      rw [backtrack] at h
      split at h
      · exact Except.noConfusion h
      · next hcomp =>
          cases h
          exact ⟨rfl, asg, rfl, Or.inl hcomp⟩
      · split at h
        · exact Except.noConfusion h
        · next v hsel =>
            have hun := (unassigned_mem p asg v (select_ok_unassigned p d asg v hsel)).2
            exact tryWords_frame p v _ (fun d0 a0 d3 r0 h0 => ih d0 a0 d3 r0 h0)
              (d v) d asg d2 r hun h

/-- C9: backtracking leaves no side effects on failure — a `backtrack`
call never changes the domain store it was given, and whenever the
assignment it returns is not a complete one it is exactly the input
assignment (every tentative entry was popped on every exit path). -/
theorem backtrack_frame (p : Puzzle) (fuel : Nat) (d : Domains) (asg : Assignment)
    (d2 : Domains) (r : Option Assignment)
    (h : backtrack p fuel d asg = .ok (d2, r)) :
    d2 = d ∧ ∀ a, r = some a →
      (assignment_complete p a = .ok true ∨ a = asg) := by
  obtain ⟨hd, a2, ha2, hor⟩ := backtrack_master p fuel d asg d2 r h
  refine ⟨hd, fun a ha => ?_⟩
  rw [ha2] at ha
  obtain rfl : a2 = a := Option.some.inj ha
  exact hor

/-- C9 witness: a concrete failing run returns the domain store and the
input assignment unchanged. -/
theorem backtrack_frame_w :
    dEmpty = dEmpty ∧
    (assignment_complete pOne [] = .ok true ∨ ([] : Assignment) = []) := by
  have h := backtrack_frame pOne 2 dEmpty [] dEmpty (some []) rfl
  exact ⟨h.1, h.2 [] rfl⟩

theorem tryWords_congr (p : Puzzle) (v : Var)
    (bt bt2 : Domains → Assignment → Except Unit (Domains × Option Assignment))
    (hcong : ∀ d a, bt d a = bt2 d a) :
    ∀ (ws : List Word) (d : Domains) (asg : Assignment),
      tryWords p bt v d asg ws = tryWords p bt2 v d asg ws := by
  intro ws
  induction ws with
  | nil => intro d asg; rfl
  | cons w rest ih =>
      intro d asg
      rw [tryWords, tryWords, hcong d (insertA asg v w)]
      split
      · rfl
      · split
        · rfl
        · rfl
        · split
          · rfl
          · rfl
          · split
            · rfl
            · exact ih _ _
      · split
        · rfl
        · exact ih _ _

/-- C5 (amended): the search tries the selected slot's candidate words in
exactly the iteration order of that slot's domain — `backtrack` coincides
with the generic engine instantiated with the raw domain reader, and
`order_domain_values` is never consulted (the spec-described engine
`backtrackSpec` differs, see the counterexample). -/
theorem backtrack_uses_domain_order (p : Puzzle) :
    ∀ (fuel : Nat) (d : Domains) (asg : Assignment),
      backtrack p fuel d asg =
        backtrackW p (fun d0 _ v => .ok (d0 v)) fuel d asg := by
  intro fuel
  induction fuel with
  | zero => intro d asg; rfl
  | succ fuel ih =>
      intro d asg
      rw [backtrack, backtrackW]
      split
      · rfl
      · rfl
      · split
        · rfl
        · exact tryWords_congr p _ _ _ (fun d2 a2 => ih d2 a2) _ d asg

/-- C2 (amended): when the `ac3` propagation run made by `solve` reports
failure, `solve` does not report the no-solution outcome: it discards the
verdict, invokes the backtracking search on the post-propagation store,
returns whatever the search returns — and in particular never returns the
`None` that would signal no solution. -/
theorem solve_runs_search_after_ac3_failure (p : Puzzle) (d2 : Domains)
    (h : ac3 p (ac3FuelOf p (enforce_node_consistency p (initDomains p)))
      (enforce_node_consistency p (initDomains p)) [] = .ok (false, d2)) :
    solve p = (match backtrack p (btFuelOf p) d2 [] with
      | .error e => .error e
      | .ok (_, r) => .ok r) ∧
    solve p ≠ .ok none := by
  have h1 : solve p = (match backtrack p (btFuelOf p) d2 [] with
      | .error e => .error e
      | .ok (_, r) => .ok r) := by
    rw [solve]
    rw [h]
  refine ⟨h1, ?_⟩
  intro hn
  rw [h1] at hn
  split at hn
  · exact Except.noConfusion hn
  · next d3 r heq =>
      obtain ⟨_, a2, ha2, _⟩ := backtrack_master p (btFuelOf p) d2 [] d3 r heq
      rw [ha2] at hn
      exact Option.noConfusion (Except.ok.inj hn)

/-- C2 witness: the failure hypothesis holds on the concrete puzzle
`pAB`, where propagation empties a domain and search still runs. -/
theorem solve_runs_search_after_ac3_failure_w :
    solve pAB = (match backtrack pAB (btFuelOf pAB)
        (updateD (enforce_node_consistency pAB (initDomains pAB)) vA []) [] with
      | .error e => .error e
      | .ok (_, r) => .ok r) ∧
    solve pAB ≠ .ok none :=
  solve_runs_search_after_ac3_failure pAB
    (updateD (enforce_node_consistency pAB (initDomains pAB)) vA []) rfl

theorem hasMatch_ok_iff (w : Word) (i j : Nat) :
    ∀ (dy : List Word) (b : Bool), hasMatch w i j dy = .ok b →
      (b = true ↔ ∃ u ∈ dy, agrees w u i j) := by
  intro dy
  induction dy with
  | nil =>
      intro b h
      rw [hasMatch] at h
      obtain rfl : false = b := Except.ok.inj h
      simp
  | cons u rest ih =>
      intro b h
      rw [hasMatch] at h
      split at h
      · next c c2 hw hu =>
          split at h
          · next hc =>
              obtain rfl : true = b := Except.ok.inj h
              subst hc
              simp only [true_iff]
              exact ⟨u, List.mem_cons_self _ _, by rw [agrees, hw, hu]; simp⟩
          · next hc =>
              rw [ih b h]
              constructor
              · intro ⟨u2, hu2, ha⟩
                exact ⟨u2, List.mem_cons_of_mem _ hu2, ha⟩
              · intro ⟨u2, hu2, ha⟩
                rcases List.mem_cons.mp hu2 with rfl | hu3
                · obtain ⟨hsome, heq⟩ := ha
                  rw [hw, hu] at heq
                  exact absurd (Option.some.inj heq) hc
                · exact ⟨u2, hu3, ha⟩
      · exact Except.noConfusion h

theorem keepMatching_all_ok (i j : Nat) (dy : List Word) :
    ∀ (ws kept : List Word), keepMatching i j dy ws = .ok kept →
      ∀ w ∈ ws, ∃ b, hasMatch w i j dy = .ok b := by
  intro ws
  induction ws with
  | nil => intro kept _ w hw; cases hw
  | cons w0 rest ih =>
      intro kept h w hw
      rw [keepMatching] at h
      split at h
      · exact Except.noConfusion h
      · next b hb =>
          split at h
          · exact Except.noConfusion h
          · next ws2 hrest =>
              rcases List.mem_cons.mp hw with rfl | hw2
              · exact ⟨b, hb⟩
              · exact ih ws2 hrest w hw2

theorem keepMatching_mem_iff (i j : Nat) (dy : List Word) :
    ∀ (ws kept : List Word), keepMatching i j dy ws = .ok kept →
      ∀ w, w ∈ kept ↔ (w ∈ ws ∧ hasMatch w i j dy = .ok true) := by
  intro ws
  induction ws with
  | nil =>
      intro kept h w
      rw [keepMatching] at h
      obtain rfl : ([] : List Word) = kept := Except.ok.inj h
      simp
  | cons w0 rest ih =>
      intro kept h w
      rw [keepMatching] at h
      split at h
      · exact Except.noConfusion h
      · next b hb =>
          split at h
          · exact Except.noConfusion h
          · next ws2 hrest =>
              obtain rfl : (if b = true then w0 :: ws2 else ws2) = kept := Except.ok.inj h
              cases b
              · rw [if_neg (by simp)]
                rw [ih ws2 hrest w]
                constructor
                · intro ⟨hw2, hm⟩
                  exact ⟨List.mem_cons_of_mem _ hw2, hm⟩
                · intro ⟨hw2, hm⟩
                  rcases List.mem_cons.mp hw2 with rfl | hw3
                  · rw [hm] at hb
                    exact absurd (Except.ok.inj hb).symm (by simp)
                  · exact ⟨hw3, hm⟩
              · rw [if_pos rfl]
                constructor
                · intro hw2
                  rcases List.mem_cons.mp hw2 with rfl | hw3
                  · exact ⟨List.mem_cons_self _ _, hb⟩
                  · obtain ⟨hw4, hm⟩ := (ih ws2 hrest w).mp hw3
                    exact ⟨List.mem_cons_of_mem _ hw4, hm⟩
                · intro ⟨hw2, hm⟩
                  rcases List.mem_cons.mp hw2 with rfl | hw3
                  · exact List.mem_cons_self _ _
                  · exact List.mem_cons_of_mem _ ((ih ws2 hrest w).mpr ⟨hw3, hm⟩)

theorem keepMatching_sublist (i j : Nat) (dy : List Word) :
    ∀ (ws kept : List Word), keepMatching i j dy ws = .ok kept →
      kept.Sublist ws := by
  intro ws
  induction ws with
  | nil =>
      intro kept h
      rw [keepMatching] at h
      obtain rfl : ([] : List Word) = kept := Except.ok.inj h
      exact List.Sublist.refl _
  | cons w0 rest ih =>
      intro kept h
      rw [keepMatching] at h
      split at h
      · exact Except.noConfusion h
      · next b hb =>
          split at h
          · exact Except.noConfusion h
          · next ws2 hrest =>
              obtain rfl : (if b = true then w0 :: ws2 else ws2) = kept := Except.ok.inj h
              cases b
              · rw [if_neg (by simp)]
                exact List.Sublist.cons _ (ih ws2 hrest)
              · rw [if_pos rfl]
                exact List.Sublist.cons₂ _ (ih ws2 hrest)

theorem revise_false_eq (p : Puzzle) (d : Domains) (x y : Var) (d1 : Domains)
    (h : revise p d x y = .ok (d1, false)) : ∀ v, d1 v = d v := by
  rw [revise] at h
  split at h
  · obtain h2 := Except.ok.inj h
    have hd : d = d1 := congrArg Prod.fst h2
    intro v
    rw [← hd]
  · next i j hov =>
      split at h
      · exact Except.noConfusion h
      · next kept hk =>
          obtain h2 := Except.ok.inj h
          have hd1 : updateD d x kept = d1 := congrArg Prod.fst h2
          have hlen : decide (kept.length ≠ (d x).length) = false := congrArg Prod.snd h2
          have hleq : kept.length = (d x).length := by simpa using hlen
          have hkeq : kept = d x :=
            List.Sublist.eq_of_length (keepMatching_sublist i j (d y) (d x) kept hk) hleq
          intro v
          rw [← hd1, hkeq, updateD]
          split
          · next hv => rw [hv]
          · rfl

theorem revise_establishes (p : Puzzle) (d : Domains) (x y : Var) (d1 : Domains)
    (r : Bool) (hxy : x ≠ y) (h : revise p d x y = .ok (d1, r)) :
    consistentArc p d1 x y ∧ (∀ v, v ≠ x → d1 v = d v) ∧
    (∀ w, w ∈ d1 x → w ∈ d x) := by
  rw [revise] at h
  split at h
  · next hov =>
      obtain h2 := Except.ok.inj h
      have hd1 : d = d1 := congrArg Prod.fst h2
      subst hd1
      refine ⟨?_, fun v _ => rfl, fun w hw => hw⟩
      intro i j hij
      rw [hov] at hij
      cases hij
  · next i j hov =>
      split at h
      · exact Except.noConfusion h
      · next kept hk =>
          obtain h2 := Except.ok.inj h
          have hd1 : updateD d x kept = d1 := congrArg Prod.fst h2
          have hyx : y ≠ x := fun hyx2 => hxy hyx2.symm
          have hmem := keepMatching_mem_iff i j (d y) (d x) kept hk
          refine ⟨?_, ?_, ?_⟩
          · intro i2 j2 hij w hw
            rw [hov] at hij
            obtain ⟨hi2, hj2⟩ : i = i2 ∧ j = j2 := by
              have h3 := Option.some.inj hij
              exact ⟨congrArg Prod.fst h3, congrArg Prod.snd h3⟩
            subst hi2
            subst hj2
            rw [← hd1, updateD, if_pos rfl] at hw
            have hm := (hmem w).mp hw
            obtain ⟨u, hu, ha⟩ := (hasMatch_ok_iff w i j (d y) true hm.2).mp rfl
            refine ⟨u, ?_, ha⟩
            rw [← hd1, updateD, if_neg hyx]
            exact hu
          · intro v hv
            rw [← hd1, updateD, if_neg hv]
          · intro w hw
            rw [← hd1, updateD, if_pos rfl] at hw
            exact ((hmem w).mp hw).1

theorem revise_preserves_reverse (p : Puzzle) (hwf : Wf p) (d : Domains)
    (x y : Var) (d1 : Domains) (r : Bool) (hxy : x ≠ y)
    (h : revise p d x y = .ok (d1, r)) (hyx : consistentArc p d y x) :
    consistentArc p d1 y x := by
  have hest := revise_establishes p d x y d1 r hxy h
  intro j i hov v hv
  have hdy : d1 y = d y := hest.2.1 y (fun h2 => hxy h2.symm)
  rw [hdy] at hv
  obtain ⟨u, hu, ha⟩ := hyx j i hov v hv
  have hov2 := hwf.symm y x j i hov
  rw [revise] at h
  split at h
  · next hovn =>
      rw [hov2] at hovn
      cases hovn
  · next i0 j0 hov0 =>
      rw [hov2] at hov0
      have h3 := Option.some.inj hov0
      have hi : i = i0 := congrArg Prod.fst h3
      have hj : j = j0 := congrArg Prod.snd h3
      subst hi
      subst hj
      split at h
      · exact Except.noConfusion h
      · next kept hk =>
          obtain h2 := Except.ok.inj h
          have hd1 : updateD d x kept = d1 := congrArg Prod.fst h2
          obtain ⟨b, hb⟩ := keepMatching_all_ok i j (d y) (d x) kept hk u hu
          have hbt : b = true := by
            rw [hasMatch_ok_iff u i j (d y) b hb]
            refine ⟨v, hv, ⟨?_, ha.2.symm⟩⟩
            rw [← ha.2]
            exact ha.1
          subst hbt
          refine ⟨u, ?_, ha⟩
          rw [← hd1, updateD, if_pos rfl]
          exact (keepMatching_mem_iff i j (d y) (d x) kept hk u).mpr ⟨hu, hb⟩

theorem consistentArc_congr (p : Puzzle) (d d1 : Domains)
    (hd : ∀ v, d1 v = d v) (x y : Var) :
    consistentArc p d1 x y ↔ consistentArc p d x y := by
  unfold consistentArc
  rw [hd x, hd y]

theorem addArcsFor_subset (v : Var) :
    ∀ (vs : List Var) (acc : List (Var × Var)) (e : Var × Var),
      e ∈ acc → e ∈ addArcsFor v vs acc := by
  intro vs
  induction vs with
  | nil => intro acc e he; exact he
  | cons v2 rest ih =>
      intro acc e he
      rw [addArcsFor]
      refine ih _ e ?_
      split
      · exact List.mem_append_left _ he
      · exact he

theorem addArcsFor_mem (v : Var) :
    ∀ (vs : List Var) (acc : List (Var × Var)) (e : Var × Var),
      e ∈ addArcsFor v vs acc →
      e ∈ acc ∨ ∃ v2 ∈ vs, e = (v, v2) ∧ v ≠ v2 := by
  intro vs
  induction vs with
  | nil => intro acc e he; exact Or.inl he
  | cons v2 rest ih =>
      intro acc e he
      rw [addArcsFor] at he
      rcases ih _ e he with h1 | h1
      · revert h1
        split
        · next hc =>
            intro h1
            rcases List.mem_append.mp h1 with h2 | h2
            · exact Or.inl h2
            · rcases List.mem_cons.mp h2 with rfl | h3
              · exact Or.inr ⟨v2, List.mem_cons_self _ _, rfl, hc.1⟩
              · cases h3
        · intro h1
          exact Or.inl h1
      · obtain ⟨v3, hv3, he2, hne⟩ := h1
        exact Or.inr ⟨v3, List.mem_cons_of_mem _ hv3, he2, hne⟩

theorem initArcsOuter_subset (vars : List Var) :
    ∀ (out : List Var) (acc : List (Var × Var)) (e : Var × Var),
      e ∈ acc → e ∈ initArcsOuter vars out acc := by
  intro out
  induction out with
  | nil => intro acc e he; exact he
  | cons v rest ih =>
      intro acc e he
      rw [initArcsOuter]
      exact ih _ e (addArcsFor_subset v vars acc e he)

theorem initArcsOuter_mem (vars : List Var) :
    ∀ (out : List Var) (acc : List (Var × Var)) (e : Var × Var),
      e ∈ initArcsOuter vars out acc →
      e ∈ acc ∨ ∃ v ∈ out, ∃ v2 ∈ vars, e = (v, v2) ∧ v ≠ v2 := by
  intro out
  induction out with
  | nil => intro acc e he; exact Or.inl he
  | cons v rest ih =>
      intro acc e he
      rw [initArcsOuter] at he
      rcases ih _ e he with h1 | h1
      · rcases addArcsFor_mem v vars acc e h1 with h2 | h2
        · exact Or.inl h2
        · obtain ⟨v2, hv2, he2, hne⟩ := h2
          exact Or.inr ⟨v, List.mem_cons_self _ _, v2, hv2, he2, hne⟩
      · obtain ⟨v0, hv0, v2, hv2, he2, hne⟩ := h1
        exact Or.inr ⟨v0, List.mem_cons_of_mem _ hv0, v2, hv2, he2, hne⟩

theorem initArcs_shape (vars : List Var) (a b : Var)
    (h : (a, b) ∈ initArcs vars) : a ∈ vars ∧ b ∈ vars ∧ a ≠ b := by
  rcases initArcsOuter_mem vars vars [] (a, b) h with h1 | h1
  · cases h1
  · obtain ⟨v0, hv0, v2, hv2, he2, hne⟩ := h1
    have ha : a = v0 := congrArg Prod.fst he2
    have hb : b = v2 := congrArg Prod.snd he2
    subst ha
    subst hb
    exact ⟨hv0, hv2, hne⟩

theorem addArcsFor_covers (v : Var) :
    ∀ (vs : List Var) (acc : List (Var × Var)) (v2 : Var),
      v2 ∈ vs → v ≠ v2 →
      (v, v2) ∈ addArcsFor v vs acc ∨ (v2, v) ∈ addArcsFor v vs acc := by
  intro vs
  induction vs with
  | nil => intro acc v2 hv2 _; cases hv2
  | cons u rest ih =>
      intro acc v2 hv2 hne
      rcases List.mem_cons.mp hv2 with rfl | hv3
      · rw [addArcsFor]
        by_cases hc : v ≠ v2 ∧ (v2, v) ∉ acc
        · left
          refine addArcsFor_subset v rest _ _ ?_
          rw [if_pos hc]
          exact List.mem_append_right _ (List.mem_cons_self _ _)
        · right
          have hmem : (v2, v) ∈ acc := by
            rcases not_and_or.mp hc with h1 | h1
            · exact absurd hne h1
            · exact not_not.mp h1
          refine addArcsFor_subset v rest _ _ ?_
          split
          · exact List.mem_append_left _ hmem
          · exact hmem
      · rw [addArcsFor]
        exact ih _ v2 hv3 hne

theorem initArcsOuter_covers (vars : List Var) :
    ∀ (out : List Var) (acc : List (Var × Var)) (a b : Var),
      a ∈ out → b ∈ vars → a ≠ b →
      (a, b) ∈ initArcsOuter vars out acc ∨ (b, a) ∈ initArcsOuter vars out acc := by
  intro out
  induction out with
  | nil => intro acc a b ha _ _; cases ha
  | cons v rest ih =>
      intro acc a b ha hb hne
      rcases List.mem_cons.mp ha with rfl | ha2
      · rw [initArcsOuter]
        rcases addArcsFor_covers a vars acc b hb hne with h1 | h1
        · exact Or.inl (initArcsOuter_subset vars rest _ _ h1)
        · exact Or.inr (initArcsOuter_subset vars rest _ _ h1)
      · rw [initArcsOuter]
        exact ih _ a b ha2 hb hne

theorem initArcs_covers (vars : List Var) (a b : Var)
    (ha : a ∈ vars) (hb : b ∈ vars) (hne : a ≠ b) :
    (a, b) ∈ initArcs vars ∨ (b, a) ∈ initArcs vars :=
  initArcsOuter_covers vars vars [] a b ha hb hne

theorem ac3Loop_sound (p : Puzzle) (hwf : Wf p) (T : Var → Var → Prop)
    (hT : ∀ a b, T a b → a ∈ p.vars ∧ a ≠ b) :
    ∀ (fuel : Nat) (W : List (Var × Var)) (d d1 : Domains),
      (∀ u v, (u, v) ∈ W → u ≠ v) →
      (∀ a b, T a b → ((a, b) ∈ W ∨ consistentArc p d a b)) →
      ac3Loop p fuel d W = .ok (true, d1) →
      ∀ a b, T a b → consistentArc p d1 a b := by
  intro fuel
  induction fuel with
  | zero => intro W d d1 _ _ h; exact Except.noConfusion h
  | succ fuel ih =>
      intro W d d1 hWd hInv h
      cases W with
      | nil =>
          rw [ac3Loop] at h
          have h2 := Except.ok.inj h
          have hd : d = d1 := congrArg Prod.snd h2
          subst hd
          intro a b hab
          rcases hInv a b hab with hin | hc
          · cases hin
          · exact hc
      | cons arc rest =>
          obtain ⟨x, y⟩ := arc
          have hxy : x ≠ y := hWd x y (List.mem_cons_self _ _)
          rw [ac3Loop] at h
          split at h
          · exact Except.noConfusion h
          · next d2 rev hrev =>
              cases rev with
              | false =>
                  rw [if_neg (by simp)] at h
                  have hest := revise_establishes p d x y d2 false hxy hrev
                  have hdeq := revise_false_eq p d x y d2 hrev
                  refine ih rest d2 d1
                    (fun u v huv => hWd u v (List.mem_cons_of_mem _ huv)) ?_ h
                  intro a b hab
                  rcases hInv a b hab with hin | hc
                  · rcases List.mem_cons.mp hin with heq | hin2
                    · have ha : a = x := congrArg Prod.fst heq
                      have hb : b = y := congrArg Prod.snd heq
                      rw [ha, hb]
                      exact Or.inr hest.1
                    · exact Or.inl hin2
                  · exact Or.inr ((consistentArc_congr p d d2 hdeq a b).mpr hc)
              | true =>
                  rw [if_pos rfl] at h
                  split at h
                  · have h2 := Except.ok.inj h
                    have : false = true := congrArg Prod.fst h2
                    exact Bool.noConfusion this
                  · have hest := revise_establishes p d x y d2 true hxy hrev
                    refine ih _ d2 d1 ?_ ?_ h
                    · intro u v huv
                      rcases List.mem_append.mp huv with h1 | h1
                      · rw [List.mem_reverse] at h1
                        obtain ⟨z, hz, hzz⟩ := List.mem_map.mp h1
                        have hu : u = z := (congrArg Prod.fst hzz).symm
                        have hv : v = x := (congrArg Prod.snd hzz).symm
                        rw [hu, hv]
                        have hz2 := (List.mem_filter.mp hz).1
                        exact ((mem_neighbors p x z).mp hz2).2.1
                      · exact hWd u v (List.mem_cons_of_mem _ h1)
                    · intro a b hab
                      rcases hInv a b hab with hin | hc
                      · rcases List.mem_cons.mp hin with heq | hin2
                        · have ha : a = x := congrArg Prod.fst heq
                          have hb : b = y := congrArg Prod.snd heq
                          rw [ha, hb]
                          exact Or.inr hest.1
                        · exact Or.inl (List.mem_append_right _ hin2)
                      · by_cases hbx : b = x
                        · rw [hbx] at hc ⊢
                          by_cases hay : a = y
                          · rw [hay] at hc ⊢
                            exact Or.inr
                              (revise_preserves_reverse p hwf d x y d2 true hxy hrev hc)
                          · cases hov : p.overlaps a x with
                            | none =>
                                refine Or.inr ?_
                                intro i j hij
                                rw [hov] at hij
                                cases hij
                            | some ij =>
                                refine Or.inl (List.mem_append_left _ ?_)
                                rw [List.mem_reverse]
                                refine List.mem_map.mpr ⟨a, ?_, rfl⟩
                                rw [List.mem_filter]
                                obtain ⟨hav, hane⟩ := hT a b hab
                                rw [hbx] at hane
                                constructor
                                · rw [mem_neighbors]
                                  exact ⟨hav, hane, by rw [hov]; rfl⟩
                                · simp [hay]
                        · refine Or.inr ?_
                          have hdb : d2 b = d b := hest.2.1 b hbx
                          intro i j hij w hw
                          by_cases hax : a = x
                          · rw [hax] at hij hc hw
                            obtain ⟨u, hu, ha2⟩ := hc i j hij w (hest.2.2 w hw)
                            exact ⟨u, by rw [hdb]; exact hu, ha2⟩
                          · rw [hest.2.1 a hax] at hw
                            obtain ⟨u, hu, ha2⟩ := hc i j hij w hw
                            exact ⟨u, by rw [hdb]; exact hu, ha2⟩

/-- C3 (amended): after `ac3` with no seed arcs succeeds, every arc in the
seeded direction is consistent — for every ordered pair retained in the
initial arc list (one per unordered pair of distinct slots), every word in
the first slot's final domain has a supporting word in the second slot's
final domain — and every unordered pair of distinct slots is covered in at
least one direction.  The reverse directions need not be consistent (see
the counterexample). -/
theorem ac3_seeded_arcs_sound (p : Puzzle) (hwf : Wf p) (fuel : Nat)
    (d d1 : Domains) (h : ac3 p fuel d [] = .ok (true, d1)) :
    (∀ x y, (x, y) ∈ initArcs p.vars → consistentArc p d1 x y) ∧
    (∀ x y, x ∈ p.vars → y ∈ p.vars → x ≠ y →
      (x, y) ∈ initArcs p.vars ∨ (y, x) ∈ initArcs p.vars) := by
  have h2 : ac3Loop p fuel d ((initArcs p.vars).reverse) = .ok (true, d1) := h
  constructor
  · intro x y hxy
    exact ac3Loop_sound p hwf (fun a b => (a, b) ∈ initArcs p.vars)
      (fun a b hab =>
        ⟨(initArcs_shape p.vars a b hab).1, (initArcs_shape p.vars a b hab).2.2⟩)
      fuel ((initArcs p.vars).reverse) d d1
      (fun u v huv => (initArcs_shape p.vars u v (List.mem_reverse.mp huv)).2.2)
      (fun a b hab => Or.inl (List.mem_reverse.mpr hab))
      h2 x y hxy
  · exact fun x y hx hy hne => initArcs_covers p.vars x y hx hy hne

/-- C3 witness: on a concrete consistent run, the seeded arc (vA, vB) of
`pAB` is certified arc consistent in the final store. -/
theorem ac3_seeded_arcs_sound_w :
    consistentArc pAB (updateD dabW vA [['a', 'b']]) vA vB :=
  (ac3_seeded_arcs_sound pAB pAB_wf 2 dabW (updateD dabW vA [['a', 'b']]) rfl).1
    vA vB (by decide)
